import Mathlib

/-!
Verification of the stressor repository's core: the deep-merge utility
(`src/utils/merge.ts`), the adapter pipeline (`src/pipeline.ts`) and the
K6 output sanitizer (`src/adapters/load/sanitizer.ts`), shallowly embedded
in Lean 4.

JavaScript runtime values are modelled by `JVal` (numbers as exact
rationals, `undefined` as an explicit constructor).  A JavaScript object
(and likewise a `Map` in insertion order) is modelled as an association
list `List (String × JVal)`: assignment `o[k] = v` updates the entry in
place when the key is present (preserving its position) and appends it
otherwise, exactly as JS property assignment and `Map.set` behave.
-/

set_option autoImplicit false

namespace Stressor

/-- Model of a JavaScript runtime value: `undefined`, `null`, booleans,
numbers (as exact rationals; `NaN`/`Infinity` do not arise in this code),
strings, arrays and plain objects (fields in property order). -/
inductive JVal : Type where
  | undef : JVal
  | null : JVal
  | bool (b : Bool) : JVal
  | num (q : ℚ) : JVal
  | str (s : String) : JVal
  | arr (elems : List JVal) : JVal
  | obj (fields : List (String × JVal)) : JVal

/-- Property read `o[k]`: the value at the first occurrence of key `k`,
`none` when the key is absent (JS `undefined` for a missing property). -/
def alistGet? {α : Type} : List (String × α) → String → Option α
  | [], _ => none
  | (k1, v1) :: t, k => if k1 = k then some v1 else alistGet? t k

/-- Key-presence test, as JS `key in target` / `Map.has`. -/
def alistHas {α : Type} (l : List (String × α)) (k : String) : Bool :=
  (alistGet? l k).isSome

/-- Property write `o[k] = v` / `Map.set(k, v)`: overwrite in place when the
key is present (keeping its position), append otherwise. -/
def alistSet {α : Type} : List (String × α) → String → α → List (String × α)
  | [], k, v => [(k, v)]
  | (k1, v1) :: t, k, v =>
    if k1 = k then (k1, v) :: t else (k1, v1) :: alistSet t k v

/-- Update the value stored at key `k` (no-op when absent); models mutating
the object previously obtained by `Map.get(k)` in place. -/
def alistUpdate {α : Type} : List (String × α) → String → (α → α) → List (String × α)
  | [], _, _ => []
  | (k1, v1) :: t, k, f =>
    if k1 = k then (k1, f v1) :: t else (k1, v1) :: alistUpdate t k f

/-- JavaScript truthiness of a value (`if (x)`): `undefined`, `null`,
`false`, `0` and `""` are falsy, everything else (arrays and objects
included) is truthy. -/
def truthy : JVal → Bool
  | JVal.undef => false
  | JVal.null => false
  | JVal.bool b => b
  | JVal.num q => decide (q ≠ 0)
  | JVal.str s => decide (s ≠ "")
  | JVal.arr _ => true
  | JVal.obj _ => true

/-- `isObject` from `src/utils/merge.ts`: non-null, of type object, and not
an array — in this model exactly the `obj` constructor. -/
def isObject : JVal → Bool
  | JVal.obj _ => true
  | _ => false

mutual

/-- One field assignment of `deepMerge` from `src/utils/merge.ts`: given the
target's value at the current key (`none` when the key is absent) and the
source value, recurse when both sides hold non-array objects
(`key in target && isObject(target[key]) && isObject(value)`), otherwise take
the source value wholesale. -/
def mergeField : Option JVal → JVal → JVal
  | some (JVal.obj tf), JVal.obj sf => JVal.obj (deepMergeAux tf sf tf)
  | _, v => v
termination_by _o v => (sizeOf v, 0)

/-- The loop of `deepMerge` from `src/utils/merge.ts`.  `deepMergeAux t s res`
folds the source fields `s` into the accumulator `res` (initially a copy of
the target, `{ ...target }`), assigning `result[key] = mergeField ...` for
each source key in order. -/
def deepMergeAux : List (String × JVal) → List (String × JVal) → List (String × JVal) →
    List (String × JVal)
  | _, [], res => res
  | t, (k, v) :: rest, res =>
    deepMergeAux t rest (alistSet res k (mergeField (alistGet? t k) v))
termination_by _t s _res => (sizeOf s, 1)

end

/-- `deepMerge(target, source)` from `src/utils/merge.ts`, on the field lists
of the two objects. -/
def deepMerge (t s : List (String × JVal)) : List (String × JVal) :=
  deepMergeAux t s t

mutual

/-- A value is a well-formed JavaScript tree when every object node reachable
through object fields has pairwise-distinct keys (a JS object cannot hold the
same property twice). -/
def valWF : JVal → Bool
  | JVal.obj fs => fieldsWF fs
  | _ => true

/-- Well-formedness of an object's field list: keys pairwise distinct and all
values well-formed. -/
def fieldsWF : List (String × JVal) → Bool
  | [] => true
  | (k, v) :: rest => decide (k ∉ rest.map Prod.fst) && valWF v && fieldsWF rest

end

section AListLemmas

variable {α : Type}

theorem alistGet?_set_self (l : List (String × α)) (k : String) (v : α) :
    alistGet? (alistSet l k v) k = some v := by
  induction l with
  | nil => simp [alistSet, alistGet?]
  | cons hd tl ih =>
    obtain ⟨k1, v1⟩ := hd
    by_cases h : k1 = k <;> simp [alistSet, alistGet?, h, ih]

theorem alistGet?_set_ne (l : List (String × α)) (k k1 : String) (v : α) (h : k1 ≠ k) :
    alistGet? (alistSet l k v) k1 = alistGet? l k1 := by
  induction l with
  | nil => simp [alistSet, alistGet?, Ne.symm h]
  | cons hd tl ih =>
    obtain ⟨k2, v2⟩ := hd
    by_cases h2 : k2 = k
    · subst h2
      simp [alistSet, alistGet?, Ne.symm h]
    · by_cases h3 : k2 = k1
      · subst h3
        simp [alistSet, alistGet?, h2]
      · simp [alistSet, alistGet?, h2, h3, ih]

theorem alistSet_self (l : List (String × α)) (k : String) (v : α)
    (h : alistGet? l k = some v) : alistSet l k v = l := by
  induction l with
  | nil => simp [alistGet?] at h
  | cons hd tl ih =>
    obtain ⟨k1, v1⟩ := hd
    by_cases h1 : k1 = k
    · subst h1
      simp [alistGet?] at h
      simp [alistSet, h]
    · simp [alistGet?, h1] at h
      simp [alistSet, h1, ih h]

theorem alistGet?_eq_some_of_mem_nodup {l : List (String × α)} {k : String} {v : α}
    (hn : (l.map Prod.fst).Nodup) (hm : (k, v) ∈ l) : alistGet? l k = some v := by
  induction l with
  | nil => simp at hm
  | cons hd tl ih =>
    obtain ⟨k1, v1⟩ := hd
    simp only [List.map_cons, List.nodup_cons] at hn
    rcases List.mem_cons.mp hm with h | h
    · rw [← h]
      simp [alistGet?]
    · have hk1 : k1 ≠ k := by
        rintro rfl
        exact hn.1 (List.mem_map.mpr ⟨(k1, v), h, rfl⟩)
      simp [alistGet?, hk1, ih hn.2 h]

theorem alistGet?_map_entry {β γ : Type} (g : String × β → γ) :
    ∀ (l : List (String × β)) (k : String),
      alistGet? (l.map (fun kb => (kb.1, g kb))) k =
        (alistGet? l k).map (fun v => g (k, v)) := by
  intro l
  induction l with
  | nil => intro k; simp [alistGet?]
  | cons hd tl ih =>
    intro k
    obtain ⟨k1, v1⟩ := hd
    by_cases h : k1 = k
    · subst h
      simp [alistGet?]
    · simp [alistGet?, h, ih]

theorem foldl_append_singleton {β γ : Type} :
    ∀ (l : List (β × γ)) (init : List γ),
      l.foldl (fun acc kp => acc ++ [kp.2]) init = init ++ l.map Prod.snd := by
  intro l
  induction l with
  | nil => intro init; simp
  | cons hd tl ih => intro init; simp [List.foldl_cons, ih]

end AListLemmas

theorem deepMergeAux_get_of_not_mem (t : List (String × JVal)) (src : List (String × JVal))
    (res : List (String × JVal)) (k : String) (h : k ∉ src.map Prod.fst) :
    alistGet? (deepMergeAux t src res) k = alistGet? res k := by
  induction src generalizing res with
  | nil => simp [deepMergeAux]
  | cons hd tl ih =>
    obtain ⟨k1, v1⟩ := hd
    simp only [List.map_cons, List.mem_cons] at h
    push_neg at h
    rw [deepMergeAux, ih _ h.2, alistGet?_set_ne res k1 k _ h.1]

/-- The claim's per-key merge rule, stated from the spec's words: when the
target's entry and the source value are both non-array objects the entry is
merged recursively via the top-level `deepMerge`, otherwise the source value
wins wholesale. -/
def mergeRuleSpec : Option JVal → JVal → JVal
  | some (JVal.obj tf), JVal.obj sf => JVal.obj (deepMerge tf sf)
  | _, v => v

/-- The code's per-field assignment agrees with the spec's per-key rule. -/
theorem mergeField_eq_mergeRuleSpec (o : Option JVal) (v : JVal) :
    mergeField o v = mergeRuleSpec o v := by
  match o, v with
  | none, v => cases v <;> simp [mergeField, mergeRuleSpec]
  | some w, v => cases w <;> cases v <;> simp [mergeField, mergeRuleSpec, deepMerge]

theorem deepMergeAux_get_of_get (t : List (String × JVal)) (src : List (String × JVal))
    (res : List (String × JVal)) (k : String) (v : JVal)
    (hn : (src.map Prod.fst).Nodup) (hk : alistGet? src k = some v) :
    alistGet? (deepMergeAux t src res) k = some (mergeField (alistGet? t k) v) := by
  induction src generalizing res with
  | nil => simp [alistGet?] at hk
  | cons hd tl ih =>
    obtain ⟨k1, v1⟩ := hd
    simp only [List.map_cons, List.nodup_cons] at hn
    by_cases h1 : k1 = k
    · subst h1
      simp [alistGet?] at hk
      subst hk
      rw [deepMergeAux, deepMergeAux_get_of_not_mem _ _ _ _ hn.1, alistGet?_set_self]
    · simp only [alistGet?, if_neg h1] at hk
      rw [deepMergeAux]
      exact ih _ hn.2 hk

/-- Claim C8: for every pair of key-value trees `t` and `s` and every key `k`
of `s` holding value `v`: when both `t[k]` and `v` are non-array objects the
merged object's entry at `k` is the recursive merge `deepMerge t[k] v`;
otherwise (arrays and primitives included) it is `v` wholesale. -/
theorem claim_C8_deepMerge_per_key (t s : List (String × JVal)) (k : String) (v : JVal)
    (hn : (s.map Prod.fst).Nodup) (hk : alistGet? s k = some v) :
    alistGet? (deepMerge t s) k = some (mergeRuleSpec (alistGet? t k) v) := by
  rw [deepMerge, deepMergeAux_get_of_get t s t k v hn hk, mergeField_eq_mergeRuleSpec]

/-- Witness for claim C8 at the spec's own example: merging `{a:[1,2]}` with
`{a:[3]}` yields `{a:[3]}`, not a concatenation. -/
theorem claim_C8_witness :
    (([("a", JVal.arr [JVal.num 3])].map Prod.fst).Nodup ∧
      alistGet? [("a", JVal.arr [JVal.num 3])] "a" = some (JVal.arr [JVal.num 3])) ∧
    alistGet? (deepMerge [("a", JVal.arr [JVal.num 1, JVal.num 2])]
      [("a", JVal.arr [JVal.num 3])]) "a" = some (JVal.arr [JVal.num 3]) := by
  refine ⟨⟨by simp, by simp [alistGet?]⟩, ?_⟩
  have h := claim_C8_deepMerge_per_key [("a", JVal.arr [JVal.num 1, JVal.num 2])]
    [("a", JVal.arr [JVal.num 3])] "a" (JVal.arr [JVal.num 3]) (by simp) (by simp [alistGet?])
  simpa [alistGet?] using h

theorem fieldsWF_keys_nodup {l : List (String × JVal)} (h : fieldsWF l = true) :
    (l.map Prod.fst).Nodup := by
  induction l with
  | nil => simp
  | cons hd tl ih =>
    obtain ⟨k, v⟩ := hd
    simp only [fieldsWF, Bool.and_eq_true, decide_eq_true_eq] at h
    exact List.nodup_cons.mpr ⟨h.1.1, ih h.2⟩

theorem valWF_of_mem {l : List (String × JVal)} {k : String} {v : JVal}
    (h : fieldsWF l = true) (hm : (k, v) ∈ l) : valWF v = true := by
  induction l with
  | nil => simp at hm
  | cons hd tl ih =>
    obtain ⟨k1, v1⟩ := hd
    simp only [fieldsWF, Bool.and_eq_true] at h
    rcases List.mem_cons.mp hm with heq | hmem
    · rw [show v = v1 from congrArg Prod.snd heq]
      exact h.1.2
    · exact ih h.2 hmem

theorem fieldsWF_of_mem_obj {l : List (String × JVal)} {k : String}
    {sf : List (String × JVal)} (h : fieldsWF l = true) (hm : (k, JVal.obj sf) ∈ l) :
    fieldsWF sf = true := by
  have := valWF_of_mem h hm
  simpa [valWF] using this

/-- If every source field is already present in the accumulator with the same
value and is a fixed point of the per-field merge, the fold leaves the
accumulator unchanged. -/
theorem deepMergeAux_fix (t : List (String × JVal)) (src : List (String × JVal))
    (res : List (String × JVal))
    (h : ∀ k v, (k, v) ∈ src → alistGet? res k = some v ∧
      mergeField (alistGet? t k) v = v) :
    deepMergeAux t src res = res := by
  induction src generalizing res with
  | nil => rw [deepMergeAux]
  | cons hd tl ih =>
    obtain ⟨k, v⟩ := hd
    have hh := h k v (List.mem_cons_self _ _)
    rw [deepMergeAux, hh.2, alistSet_self _ _ _ hh.1]
    exact ih res (fun k1 v1 hm => h k1 v1 (List.mem_cons_of_mem _ hm))

theorem deepMerge_self_of_lt (n : ℕ) :
    ∀ t : List (String × JVal), sizeOf t < n → fieldsWF t = true → deepMerge t t = t := by
  induction n with
  | zero => exact fun t ht _ => absurd ht (Nat.not_lt_zero _)
  | succ n ih =>
    intro t ht hwf
    rw [deepMerge]
    apply deepMergeAux_fix
    intro k v hm
    have hget := alistGet?_eq_some_of_mem_nodup (fieldsWF_keys_nodup hwf) hm
    refine ⟨hget, ?_⟩
    rw [hget]
    cases v with
    | obj sf =>
      have hsz : sizeOf sf < n := by
        have h1 := List.sizeOf_lt_of_mem hm
        simp only [Prod.mk.sizeOf_spec, JVal.obj.sizeOf_spec] at h1
        omega
      have hrec := ih sf hsz (fieldsWF_of_mem_obj hwf hm)
      rw [deepMerge] at hrec
      simp [mergeField, hrec]
    | undef => simp [mergeField]
    | null => simp [mergeField]
    | bool b => simp [mergeField]
    | num q => simp [mergeField]
    | str s => simp [mergeField]
    | arr es => simp [mergeField]

/-- Claim C9: deep-merge is idempotent when a well-formed JavaScript tree
(every object node has pairwise-distinct keys) is merged onto itself:
`deepMerge(x, x)` is structurally equal to `x`. -/
theorem claim_C9_deepMerge_idem (t : List (String × JVal)) (h : fieldsWF t = true) :
    deepMerge t t = t :=
  deepMerge_self_of_lt (sizeOf t + 1) t (Nat.lt_succ_self _) h

/-- Witness for claim C9 at a concrete tree containing a nested object, an
array and a primitive. -/
theorem claim_C9_witness :
    fieldsWF [("a", JVal.obj [("x", JVal.num 1)]),
      ("b", JVal.arr [JVal.num 1, JVal.num 2]), ("c", JVal.str "s")] = true ∧
    deepMerge
      [("a", JVal.obj [("x", JVal.num 1)]),
        ("b", JVal.arr [JVal.num 1, JVal.num 2]), ("c", JVal.str "s")]
      [("a", JVal.obj [("x", JVal.num 1)]),
        ("b", JVal.arr [JVal.num 1, JVal.num 2]), ("c", JVal.str "s")] =
      [("a", JVal.obj [("x", JVal.num 1)]),
        ("b", JVal.arr [JVal.num 1, JVal.num 2]), ("c", JVal.str "s")] := by
  refine ⟨by simp [fieldsWF, valWF], ?_⟩
  exact claim_C9_deepMerge_idem _ (by simp [fieldsWF, valWF])

/-- The adapter capability of `src/types/adapter.ts`: `run` receives an input
and produces an output.  In this model `run` is a total function from the JS
config value to the value the returned promise resolves with (adapters that
reject are outside the claims settled against this model). -/
structure Adapter where
  run : JVal → JVal

/-- `AdapterPipeline` of `src/pipeline.ts`: the adapter registry and the
per-adapter config registry, both JS objects keyed by the adapter name.  The
compile-time type growth of the TS original has no runtime content; at
runtime both registries are plain objects. -/
structure AdapterPipeline where
  adapters : List (String × Adapter)
  config : List (String × JVal)

/-- `AdapterPipeline.addAdapter(key, adapter, config?)`: builds a new pipeline
from `{ ...this.adapters, [key]: adapter }` and
`{ ...this.config, [key]: config || undefined }`.  Spread plus computed key
overwrites in place when the key already exists and appends otherwise, which
is exactly `alistSet`; `config || undefined` keeps a truthy config and turns
any falsy config (including an omitted one) into `undefined`.  The source
builds both registries with object spreads and never calls `adapter.run`, so
the embedding is a pure function of its arguments. -/
def addAdapter (p : AdapterPipeline) (key : String) (adapter : Adapter) (config : JVal) :
    AdapterPipeline :=
  { adapters := alistSet p.adapters key adapter
    config := alistSet p.config key (if truthy config then config else JVal.undef) }

/-- Observable scheduling events of one `run` call: `start k` is emitted when
`adapter.run(finalConfig[k])` is invoked (the adapter's execution begins),
`settle k` when that adapter's promise settles. -/
inductive Event where
  | start (key : String)
  | settle (key : String)

/-- `AdapterPipeline.run(config?, options)` from `src/pipeline.ts`, with its
asynchronous control flow made explicit as an event trace.

The source first computes `finalConfig = deepMerge(this.config, config||{})`,
then builds `promises` with a synchronous
`Object.entries(this.adapters).map(([key, adapter]) =>
finalConfig[key] ? adapter.run(finalConfig[key]) : null)` — so `adapter.run`
is invoked for every adapter with a truthy merged entry during this map,
before any `await`.  Each adapter is an asynchronous task that suspends at
least once, hence none of the created promises can settle before the
synchronous map has finished; settlements are then observed at the joins
(`Promise.all` in parallel mode, the `results.push(await p)` loop in
sequential mode), in index order; `await null` for a skipped adapter settles
nothing.  The trace is therefore all `start` events in registration order
followed by the `settle` events in await order.  The returned map pairs the
keys of `Object.entries(this.adapters)` with `results[index]`; `none`
models the `null` stored for a skipped adapter.

`promiseFor` is one entry of the `promises` map:
`finalConfig[key] ? adapter.run(finalConfig[key]) : null` — a missing key
reads as `undefined`, which is falsy, so the adapter is skipped (`none`
models the stored `null`); a truthy entry invokes the adapter on it. -/
def promiseFor (finalConfig : List (String × JVal)) (key : String) (a : Adapter) :
    Option JVal :=
  match alistGet? finalConfig key with
  | some c => if truthy c then some (a.run c) else none
  | none => none

/-- The body of `AdapterPipeline.run`; see `promiseFor` for the shared
documentation of the asynchronous model. -/
def pipelineRun (p : AdapterPipeline) (overrideConfig : List (String × JVal))
    (runInParallel : Bool) : List Event × List (String × Option JVal) :=
  let finalConfig := deepMerge p.config overrideConfig
  let promises : List (String × Option JVal) := p.adapters.map (fun ka =>
    (ka.1, promiseFor finalConfig ka.1 ka.2))
  let startTrace := promises.filterMap (fun kp => kp.2.map (fun _ => Event.start kp.1))
  let settleTrace := promises.filterMap (fun kp => kp.2.map (fun _ => Event.settle kp.1))
  let results := if runInParallel then promises.map Prod.snd
    else promises.foldl (fun acc kp => acc ++ [kp.2]) []
  (startTrace ++ settleTrace, (p.adapters.map Prod.fst).zip results)

/-- Echo adapter used for concrete pipeline inputs. -/
def echoAdapter : Adapter := ⟨fun v => v⟩

/-- Adapter resolving with the constant string "outA". -/
def adapterA : Adapter := ⟨fun _ => JVal.str "outA"⟩

/-- Adapter resolving with the constant string "outB". -/
def adapterB : Adapter := ⟨fun _ => JVal.str "outB"⟩

/-- A pipeline with two executable adapters registered as "A" then "B". -/
def twoAdapterPipe : AdapterPipeline :=
  addAdapter (addAdapter ⟨[], []⟩ "A" adapterA (JVal.bool true)) "B" adapterB (JVal.bool true)

/-- Claim C1 evaluated on the code: with two executable adapters registered in
order "A", "B" and `runInParallel` false, the trace produced by `run` is
`start A, start B, settle A, settle B` — adapter B's `run` is invoked (index
1) strictly before adapter A's promise settles (index 2), violating the
claimed strict sequentiality: the synchronous `map` that builds `promises`
calls `adapter.run` for every executable adapter up front, and the
sequential-mode loop only sequences the awaiting of the already-started
promises. -/
theorem claim_C1_eager_start :
    (pipelineRun twoAdapterPipe [] false).1 =
      [Event.start "A", Event.start "B", Event.settle "A", Event.settle "B"] ∧
    ∃ i j : ℕ, i < j ∧
      (pipelineRun twoAdapterPipe [] false).1[i]? = some (Event.start "B") ∧
      (pipelineRun twoAdapterPipe [] false).1[j]? = some (Event.settle "A") := by
  have h : (pipelineRun twoAdapterPipe [] false).1 =
      [Event.start "A", Event.start "B", Event.settle "A", Event.settle "B"] := by
    simp [pipelineRun, promiseFor, twoAdapterPipe, addAdapter, alistSet, alistGet?, truthy,
      deepMerge, deepMergeAux, adapterA, adapterB]
  exact ⟨h, 1, 2, Nat.lt_succ_self 1, by rw [h]; rfl, by rw [h]; rfl⟩

/-- Claim C6 (amended): `addAdapter(key, a, c)` returns a new pipeline whose
adapter registry is the original extended (or overwritten at `key`) with `a`
and whose config registry is extended (or overwritten at `key`) with `c` when
`c` is truthy and with `undefined` when `c` is falsy (`config || undefined`
in the source); every other key keeps its original entry, the adapter is
stored unexecuted, and the original pipeline value is untouched (the source
builds both registries with fresh object spreads). -/
theorem claim_C6_addAdapter_registries (p : AdapterPipeline) (key : String)
    (a : Adapter) (c : JVal) (k : String) :
    alistGet? (addAdapter p key a c).adapters k =
      (if k = key then some a else alistGet? p.adapters k) ∧
    alistGet? (addAdapter p key a c).config k =
      (if k = key then some (if truthy c then c else JVal.undef)
       else alistGet? p.config k) := by
  constructor
  · by_cases h : k = key
    · subst h
      simp [addAdapter, alistGet?_set_self]
    · simp [addAdapter, h, alistGet?_set_ne _ _ _ _ h]
  · by_cases h : k = key
    · subst h
      simp [addAdapter, alistGet?_set_self]
    · simp [addAdapter, h, alistGet?_set_ne _ _ _ _ h]

/-- Counterexample to claim C6 as stated: registering with the falsy config
`0` stores `undefined` in the config registry, not the given config value. -/
theorem claim_C6_counterexample :
    alistGet? (addAdapter ⟨[], []⟩ "k" echoAdapter (JVal.num 0)).config "k" =
      some JVal.undef ∧ JVal.undef ≠ JVal.num 0 := by
  constructor
  · norm_num [addAdapter, alistSet, alistGet?, truthy]
  · intro h
    cases h

theorem alistGet?_promiseFor (final : List (String × JVal)) :
    ∀ (l : List (String × Adapter)) (k : String) (a : Adapter),
      alistGet? l k = some a →
      alistGet? (l.map (fun ka => (ka.1, promiseFor final ka.1 ka.2))) k =
        some (promiseFor final k a) := by
  intro l
  induction l with
  | nil => intro k a hk; simp [alistGet?] at hk
  | cons hd tl ih =>
    intro k a hk
    obtain ⟨k1, v1⟩ := hd
    by_cases h : k1 = k
    · subst h
      simp [alistGet?] at hk
      subst hk
      simp [alistGet?]
    · simp [alistGet?, h] at hk ⊢
      exact ih k a hk

/-- Claim C7: for every pipeline, override config and registered adapter key,
`run`'s result map has an entry for the key, and that entry is the adapter's
resolved output when the deep-merged final config entry for the key is
truthy, and `null` when the merged entry is falsy or absent (the adapter is
skipped, not failed). -/
theorem claim_C7_run_truthy_gate (p : AdapterPipeline) (ov : List (String × JVal))
    (par : Bool) (k : String) (a : Adapter)
    (hk : alistGet? p.adapters k = some a) :
    (∀ c, alistGet? (deepMerge p.config ov) k = some c → truthy c = true →
      alistGet? (pipelineRun p ov par).2 k = some (some (a.run c))) ∧
    (∀ c, alistGet? (deepMerge p.config ov) k = some c → truthy c = false →
      alistGet? (pipelineRun p ov par).2 k = some none) ∧
    (alistGet? (deepMerge p.config ov) k = none →
      alistGet? (pipelineRun p ov par).2 k = some none) := by
  have hres : (pipelineRun p ov par).2 = p.adapters.map (fun ka =>
      (ka.1, promiseFor (deepMerge p.config ov) ka.1 ka.2)) := by
    cases par with
    | true =>
      simp only [pipelineRun]
      simp [List.zip_map']
    | false =>
      simp only [pipelineRun]
      simp [foldl_append_singleton, List.zip_map']
  have hget : alistGet? (pipelineRun p ov par).2 k =
      some (promiseFor (deepMerge p.config ov) k a) := by
    rw [hres]
    exact alistGet?_promiseFor (deepMerge p.config ov) p.adapters k a hk
  refine ⟨?_, ?_, ?_⟩
  · intro c hc ht
    rw [hget, promiseFor, hc]
    simp [ht]
  · intro c hc ht
    rw [hget, promiseFor, hc]
    simp [ht]
  · intro hc
    rw [hget, promiseFor, hc]

/-- Witness for claim C7: on the two-adapter pipeline with an override that
merges adapter "B"'s config to the falsy `0`, `run` pairs "A" with its
resolved output and stores `null` for the skipped "B". -/
theorem claim_C7_witness :
    (alistGet? twoAdapterPipe.adapters "A" = some adapterA ∧
     alistGet? (deepMerge twoAdapterPipe.config [("B", JVal.num 0)]) "A" =
       some (JVal.bool true) ∧ truthy (JVal.bool true) = true ∧
     alistGet? (pipelineRun twoAdapterPipe [("B", JVal.num 0)] false).2 "A" =
       some (some (JVal.str "outA"))) ∧
    (alistGet? twoAdapterPipe.adapters "B" = some adapterB ∧
     alistGet? (deepMerge twoAdapterPipe.config [("B", JVal.num 0)]) "B" =
       some (JVal.num 0) ∧ truthy (JVal.num 0) = false ∧
     alistGet? (pipelineRun twoAdapterPipe [("B", JVal.num 0)] false).2 "B" =
       some none) := by
  have hkA : alistGet? twoAdapterPipe.adapters "A" = some adapterA := by
    simp [twoAdapterPipe, addAdapter, alistSet, alistGet?]
  have hkB : alistGet? twoAdapterPipe.adapters "B" = some adapterB := by
    simp [twoAdapterPipe, addAdapter, alistSet, alistGet?]
  have hcA : alistGet? (deepMerge twoAdapterPipe.config [("B", JVal.num 0)]) "A" =
      some (JVal.bool true) := by
    simp [twoAdapterPipe, addAdapter, alistSet, alistGet?, truthy,
      deepMerge, deepMergeAux, mergeField]
  have hcB : alistGet? (deepMerge twoAdapterPipe.config [("B", JVal.num 0)]) "B" =
      some (JVal.num 0) := by
    simp [twoAdapterPipe, addAdapter, alistSet, alistGet?, truthy,
      deepMerge, deepMergeAux, mergeField]
  have htB : truthy (JVal.num 0) = false := by norm_num [truthy]
  have hA := (claim_C7_run_truthy_gate twoAdapterPipe [("B", JVal.num 0)] false
    "A" adapterA hkA).1 (JVal.bool true) hcA (by simp [truthy])
  have hB := (claim_C7_run_truthy_gate twoAdapterPipe [("B", JVal.num 0)] false
    "B" adapterB hkB).2.1 (JVal.num 0) hcB htB
  exact ⟨⟨hkA, hcA, by simp [truthy], by simpa [adapterA] using hA⟩,
    ⟨hkB, hcB, htB, hB⟩⟩

/-- The `data` payload of a K6 `Metric` (definition) event, as consumed by
`addMetricDefinition`: the metric's name, its kind and its `contains` tag. -/
structure K6MetricData where
  name : String
  type : String
  contains : String
deriving DecidableEq

/-- The `data` payload of a K6 `Point` event: the time string, the numeric
value (an exact rational in this model) and the tag map. -/
structure K6PointData where
  time : String
  value : ℚ
  tags : List (String × String)
deriving DecidableEq

/-- One line of the raw K6 output stream (`K6Output` in
`src/adapters/load/types/report.ts`): a `Metric` definition event or a
`Point` event referencing a metric by name. -/
inductive K6Output where
  | metric (data : K6MetricData)
  | point (metric : String) (data : K6PointData)
deriving DecidableEq

/-- A point stored on a metric report.  `new Date(point.data.time)` is kept
as the unparsed time string (date parsing has no bearing on any claim). -/
structure MetricPoint where
  time : String
  timestamp : String
  value : ℚ
  tags : List (String × String)
deriving DecidableEq

/-- The derived summary statistics of a report. -/
structure Summary where
  count : ℕ
  avg : ℚ
  min : ℚ
  max : ℚ
deriving DecidableEq

/-- `MetricReport` of `src/adapters/load/types/report.ts`; the optional
`unit` and `summary` fields are `Option`s. -/
structure MetricReport where
  name : String
  type : String
  description : String
  unit : Option String
  points : List MetricPoint
  summary : Option Summary
deriving DecidableEq

/-- The sanitizer's internal `metrics: Map<string, MetricReport>` in
insertion order. -/
abbrev MetricsMap := List (String × MetricReport)

/-- `getUnitFromContains`: a record lookup `{time: "ms", data: "bytes"}` —
any other tag has no unit. -/
def getUnitFromContains (contains : String) : Option String :=
  alistGet? [("time", "ms"), ("data", "bytes")] contains

/-- The static description table of `getMetricDescription`. -/
def metricDescriptions : List (String × String) :=
  [("vus", "Virtual Users - Número de usuarios virtuales activos"),
   ("vus_max", "Virtual Users Max - Máximo número de usuarios virtuales permitidos"),
   ("http_reqs", "HTTP Requests - Total de peticiones HTTP realizadas"),
   ("http_req_duration", "HTTP Request Duration - Duración de las peticiones HTTP"),
   ("http_req_blocked", "HTTP Request Blocked - Tiempo bloqueado en la petición"),
   ("http_req_connecting", "HTTP Request Connecting - Tiempo de conexión"),
   ("http_req_tls_handshaking", "HTTP Request TLS Handshaking - Tiempo de handshake TLS"),
   ("http_req_sending", "HTTP Request Sending - Tiempo enviando datos"),
   ("http_req_waiting", "HTTP Request Waiting - Tiempo esperando respuesta"),
   ("http_req_receiving", "HTTP Request Receiving - Tiempo recibiendo datos"),
   ("http_req_failed", "HTTP Requests Failed - Porcentaje de peticiones fallidas"),
   ("checks", "Checks - Verificaciones realizadas y su estado"),
   ("data_sent", "Data Sent - Bytes enviados"),
   ("data_received", "Data Received - Bytes recibidos"),
   ("iteration_duration", "Iteration Duration - Duración de cada iteración"),
   ("iterations", "Iterations - Total de iteraciones completadas")]

/-- `getMetricDescription(name)`: `descriptions[name] || "Métrica: " + name`.
JS `||` takes the table entry when it is truthy (a non-empty string) and the
generic fallback otherwise (missing key, or an empty entry — the table has
none). -/
def getMetricDescription (name : String) : String :=
  match alistGet? metricDescriptions name with
  | some d => if d = "" then "Métrica: " ++ name else d
  | none => "Métrica: " ++ name

/-- The report skeleton `addMetricDefinition` inserts for an unseen name. -/
def defReport (d : K6MetricData) : MetricReport :=
  { name := d.name, type := d.type,
    description := getMetricDescription d.name,
    unit := getUnitFromContains d.contains, points := [], summary := none }

/-- The implicit report `addDataPoint` synthesizes for a point whose metric
name has no definition: kind "unknown", no unit, standard description. -/
def unknownReport (n : String) : MetricReport :=
  { name := n, type := "unknown",
    description := getMetricDescription n,
    unit := none, points := [], summary := none }

/-- `addMetricDefinition(metric)`: register the skeleton only when the name is
not yet present (`if (!this.metrics.has(...))`) — first definition wins. -/
def addMetricDefinition (m : MetricsMap) (d : K6MetricData) : MetricsMap :=
  if !(alistHas m d.name) then alistSet m d.name (defReport d) else m

/-- The point object pushed by `addDataPoint`. -/
def toMetricPoint (d : K6PointData) : MetricPoint :=
  { time := d.time, timestamp := d.time, value := d.value, tags := d.tags }

/-- `addDataPoint(point)`: create the implicit "unknown" report when the
metric name is absent, then push the point onto that report's point array
(mutation of the object behind `Map.get`, i.e. an in-place update). -/
def addDataPoint (m : MetricsMap) (metricName : String) (d : K6PointData) : MetricsMap :=
  let m1 := if !(alistHas m metricName)
    then alistSet m metricName (unknownReport metricName) else m
  alistUpdate m1 metricName
    (fun r => { r with points := r.points ++ [toMetricPoint d] })

/-- `Math.min(...values)` over the (always non-empty, by the caller's length
guard) value list; the `[]` case is unreachable under that guard. -/
def listMin : List ℚ → ℚ
  | [] => 0
  | x :: xs => xs.foldl min x

/-- `Math.max(...values)`, as `listMin`. -/
def listMax : List ℚ → ℚ
  | [] => 0
  | x :: xs => xs.foldl max x

/-- The per-report body of `calculateSummaries`: reports with at least one
point get `{count, avg, min, max}` over the raw values (`avg` is
`values.reduce((a,b)=>a+b,0) / values.length`); reports without points are
left untouched. -/
def calcSummary (r : MetricReport) : MetricReport :=
  if r.points.length > 0 then
    { r with summary := some (
      { count := (r.points.map (fun p => p.value)).length,
        avg := (r.points.map (fun p => p.value)).foldl (fun a b => a + b) 0 /
          ((r.points.map (fun p => p.value)).length : ℚ),
        min := listMin (r.points.map (fun p => p.value)),
        max := listMax (r.points.map (fun p => p.value)) } : Summary) }
  else r

/-- `calculateSummaries()`: update every stored report in place. -/
def calculateSummaries (m : MetricsMap) : MetricsMap :=
  m.map (fun kr => (kr.1, calcSummary kr.2))

/-- First pass of `processData`: fold the definition events into the map. -/
def phase1 (rawData : List K6Output) (s : MetricsMap) : MetricsMap :=
  rawData.foldl (fun s item =>
    match item with
    | K6Output.metric d => addMetricDefinition s d
    | K6Output.point _ _ => s) s

/-- Second pass of `processData`: fold the point events into the map. -/
def phase2 (rawData : List K6Output) (s : MetricsMap) : MetricsMap :=
  rawData.foldl (fun s item =>
    match item with
    | K6Output.metric _ => s
    | K6Output.point n d => addDataPoint s n d) s

/-- `processData()` as run by the constructor: definitions pass, then points
pass, then the summary pass, starting from the empty map. -/
def processData (rawData : List K6Output) : MetricsMap :=
  calculateSummaries (phase2 rawData (phase1 rawData []))

/-- `getSanitizedOutput()`: `Array.from(this.metrics.values())`. -/
def getSanitizedOutput (rawData : List K6Output) : List MetricReport :=
  (processData rawData).map Prod.snd

/-- One entry of `toMinimalOutput()`. -/
structure MinimalEntry where
  unit : Option String
  lastValue : Option ℚ
  summary : Option Summary
deriving DecidableEq

/-- `toMinimalOutput()`: for every stored report, an entry keyed by the
report's name holding its unit, summary and
`points[points.length - 1]?.value` — the guarded last-point access, `none`
when the report has no points. -/
def toMinimalOutput (rawData : List K6Output) : List (String × MinimalEntry) :=
  (processData rawData).map (fun kr =>
    (kr.2.name, { summary := kr.2.summary,
                  lastValue := (kr.2.points.getLast?).map (fun p => p.value),
                  unit := kr.2.unit }))

/-- The definition events of the stream that carry name `n`, in order. -/
def defEventsFor (rawData : List K6Output) (n : String) : List K6MetricData :=
  rawData.filterMap (fun item =>
    match item with
    | K6Output.metric d => if d.name = n then some d else none
    | K6Output.point _ _ => none)

/-- The point events of the stream that reference name `n`, in order. -/
def pointEventsFor (rawData : List K6Output) (n : String) : List K6PointData :=
  rawData.filterMap (fun item =>
    match item with
    | K6Output.metric _ => none
    | K6Output.point m d => if m = n then some d else none)

section UpdateLemmas

variable {α : Type}

theorem alistGet?_update_self (l : List (String × α)) (k : String) (f : α → α) :
    alistGet? (alistUpdate l k f) k = (alistGet? l k).map f := by
  induction l with
  | nil => simp [alistUpdate, alistGet?]
  | cons hd tl ih =>
    obtain ⟨k1, v1⟩ := hd
    by_cases h : k1 = k <;> simp [alistUpdate, alistGet?, h, ih]

theorem alistGet?_update_ne (l : List (String × α)) (k n : String) (f : α → α)
    (h : n ≠ k) : alistGet? (alistUpdate l k f) n = alistGet? l n := by
  induction l with
  | nil => simp [alistUpdate]
  | cons hd tl ih =>
    obtain ⟨k1, v1⟩ := hd
    by_cases h1 : k1 = k
    · subst h1
      simp [alistUpdate, alistGet?, Ne.symm h]
    · by_cases h2 : k1 = n
      · subst h2
        simp [alistUpdate, alistGet?, h1]
      · simp [alistUpdate, alistGet?, h1, h2, ih]

end UpdateLemmas

theorem phase1_cons_metric (d : K6MetricData) (raw : List K6Output) (s : MetricsMap) :
    phase1 (K6Output.metric d :: raw) s = phase1 raw (addMetricDefinition s d) := rfl

theorem phase1_cons_point (m : String) (a : K6PointData) (raw : List K6Output)
    (s : MetricsMap) : phase1 (K6Output.point m a :: raw) s = phase1 raw s := rfl

theorem phase2_cons_metric (d : K6MetricData) (raw : List K6Output) (s : MetricsMap) :
    phase2 (K6Output.metric d :: raw) s = phase2 raw s := rfl

theorem phase2_cons_point (m : String) (a : K6PointData) (raw : List K6Output)
    (s : MetricsMap) : phase2 (K6Output.point m a :: raw) s = phase2 raw (addDataPoint s m a) := rfl

theorem defEventsFor_cons_metric (d : K6MetricData) (raw : List K6Output) (n : String) :
    defEventsFor (K6Output.metric d :: raw) n =
      if d.name = n then d :: defEventsFor raw n else defEventsFor raw n := by
  by_cases h : d.name = n <;> simp [defEventsFor, h]

theorem defEventsFor_cons_point (m : String) (a : K6PointData) (raw : List K6Output)
    (n : String) : defEventsFor (K6Output.point m a :: raw) n = defEventsFor raw n := by
  simp [defEventsFor]

theorem pointEventsFor_cons_metric (d : K6MetricData) (raw : List K6Output) (n : String) :
    pointEventsFor (K6Output.metric d :: raw) n = pointEventsFor raw n := by
  simp [pointEventsFor]

theorem pointEventsFor_cons_point (m : String) (a : K6PointData) (raw : List K6Output)
    (n : String) : pointEventsFor (K6Output.point m a :: raw) n =
      if m = n then a :: pointEventsFor raw n else pointEventsFor raw n := by
  by_cases h : m = n <;> simp [pointEventsFor, h]

theorem phase1_get_some (raw : List K6Output) :
    ∀ (s : MetricsMap) (n : String) (r : MetricReport), alistGet? s n = some r →
      alistGet? (phase1 raw s) n = some r := by
  induction raw with
  | nil => intro s n r h; simpa [phase1] using h
  | cons item rest ih =>
    intro s n r h
    cases item with
    | point m a => rw [phase1_cons_point]; exact ih s n r h
    | metric d =>
      rw [phase1_cons_metric]
      apply ih
      rw [addMetricDefinition]
      by_cases hh : alistHas s d.name
      · simpa [hh] using h
      · have hne : n ≠ d.name := by
          intro he
          rw [he] at h
          simp [alistHas, h] at hh
        simp only [hh, Bool.not_false, if_pos]
        rw [alistGet?_set_ne s d.name n _ hne]
        exact h

theorem phase1_get_none (raw : List K6Output) :
    ∀ (s : MetricsMap) (n : String), alistGet? s n = none →
      alistGet? (phase1 raw s) n = (defEventsFor raw n).head?.map defReport := by
  induction raw with
  | nil => intro s n h; simpa [phase1, defEventsFor] using h
  | cons item rest ih =>
    intro s n h
    cases item with
    | point m a => rw [phase1_cons_point, defEventsFor_cons_point]; exact ih s n h
    | metric d =>
      rw [phase1_cons_metric, defEventsFor_cons_metric]
      by_cases hd : d.name = n
      · subst hd
        have hset : alistGet? (addMetricDefinition s d) d.name = some (defReport d) := by
          rw [addMetricDefinition]
          simp only [alistHas, h, Option.isSome_none, Bool.not_false, if_pos]
          exact alistGet?_set_self s d.name (defReport d)
        rw [phase1_get_some rest _ _ _ hset]
        simp
      · have hkeep : alistGet? (addMetricDefinition s d) n = none := by
          rw [addMetricDefinition]
          by_cases hh : alistHas s d.name
          · simpa [hh] using h
          · simp only [hh, Bool.not_false, if_pos]
            rw [alistGet?_set_ne s d.name n _ (Ne.symm hd)]
            exact h
        rw [if_neg hd]
        exact ih _ _ hkeep

theorem addDataPoint_of_has (s : MetricsMap) (m : String) (a : K6PointData)
    (r : MetricReport) (h : alistGet? s m = some r) :
    addDataPoint s m a =
      alistUpdate s m (fun x => { x with points := x.points ++ [toMetricPoint a] }) := by
  simp [addDataPoint, alistHas, h]

theorem addDataPoint_of_not_has (s : MetricsMap) (m : String) (a : K6PointData)
    (h : alistGet? s m = none) :
    addDataPoint s m a =
      alistUpdate (alistSet s m (unknownReport m)) m
        (fun x => { x with points := x.points ++ [toMetricPoint a] }) := by
  simp [addDataPoint, alistHas, h]

theorem addDataPoint_get_ne (s : MetricsMap) (m : String) (a : K6PointData)
    (n : String) (h : n ≠ m) : alistGet? (addDataPoint s m a) n = alistGet? s n := by
  cases hh : alistGet? s m with
  | some r =>
    rw [addDataPoint_of_has s m a r hh]
    exact alistGet?_update_ne s m n _ h
  | none =>
    rw [addDataPoint_of_not_has s m a hh]
    rw [alistGet?_update_ne _ m n _ h, alistGet?_set_ne s m n _ h]

theorem phase2_get_some (raw : List K6Output) :
    ∀ (s : MetricsMap) (n : String) (r : MetricReport), alistGet? s n = some r →
      alistGet? (phase2 raw s) n =
        some { r with points := r.points ++ (pointEventsFor raw n).map toMetricPoint } := by
  induction raw with
  | nil =>
    intro s n r h
    simp [phase2, pointEventsFor, h]
  | cons item rest ih =>
    intro s n r h
    cases item with
    | metric d => rw [phase2_cons_metric, pointEventsFor_cons_metric]; exact ih s n r h
    | point m a =>
      rw [phase2_cons_point, pointEventsFor_cons_point]
      by_cases hm : m = n
      · subst hm
        have h2 : alistGet? (addDataPoint s m a) m =
            some { r with points := r.points ++ [toMetricPoint a] } := by
          rw [addDataPoint_of_has s m a r h, alistGet?_update_self, h]
          rfl
        rw [if_pos rfl, ih _ _ _ h2]
        simp
      · rw [if_neg hm]
        exact ih _ _ _ ((addDataPoint_get_ne s m a n (Ne.symm hm)).symm ▸ h)

theorem phase2_get_none (raw : List K6Output) :
    ∀ (s : MetricsMap) (n : String), alistGet? s n = none →
      alistGet? (phase2 raw s) n =
        if pointEventsFor raw n = [] then none
        else some { unknownReport n with
          points := (pointEventsFor raw n).map toMetricPoint } := by
  induction raw with
  | nil =>
    intro s n h
    simpa [phase2, pointEventsFor] using h
  | cons item rest ih =>
    intro s n h
    cases item with
    | metric d => rw [phase2_cons_metric, pointEventsFor_cons_metric]; exact ih s n h
    | point m a =>
      rw [phase2_cons_point, pointEventsFor_cons_point]
      by_cases hm : m = n
      · subst hm
        have h2 : alistGet? (addDataPoint s m a) m =
            some { unknownReport m with points := [toMetricPoint a] } := by
          rw [addDataPoint_of_not_has s m a h, alistGet?_update_self, alistGet?_set_self]
          rfl
        rw [if_pos rfl, phase2_get_some rest _ _ _ h2]
        simp
      · rw [if_neg hm]
        exact ih _ _ ((addDataPoint_get_ne s m a n (Ne.symm hm)).symm ▸ h)

theorem alistGet?_calculateSummaries (m : MetricsMap) (n : String) :
    alistGet? (calculateSummaries m) n = (alistGet? m n).map calcSummary := by
  induction m with
  | nil => simp [calculateSummaries, alistGet?]
  | cons hd tl ih =>
    obtain ⟨k, r⟩ := hd
    by_cases h : k = n <;>
      simp only [calculateSummaries, List.map_cons, alistGet?, h, if_pos, if_neg,
        Option.map_some'] <;>
      simp [h, ← ih, calculateSummaries]

section MemKeysLemmas

variable {α : Type}

theorem mem_alistSet {l : List (String × α)} {k : String} {v : α} {p : String × α}
    (h : p ∈ alistSet l k v) : p ∈ l ∨ p = (k, v) := by
  revert h
  induction l with
  | nil => intro h; simpa [alistSet] using h
  | cons hd tl ih =>
    intro h
    obtain ⟨k1, v1⟩ := hd
    by_cases h1 : k1 = k
    · subst h1
      simp only [alistSet, if_true, eq_self_iff_true, List.mem_cons] at h
      rcases h with h | h
      · exact Or.inr h
      · exact Or.inl (List.mem_cons_of_mem _ h)
    · simp only [alistSet, if_neg h1, List.mem_cons] at h
      rcases h with h | h
      · exact Or.inl (by simp [h])
      · rcases ih h with h2 | h2
        · exact Or.inl (List.mem_cons_of_mem _ h2)
        · exact Or.inr h2

theorem mem_alistUpdate {l : List (String × α)} {k : String} {f : α → α}
    {p : String × α} (h : p ∈ alistUpdate l k f) :
    p ∈ l ∨ ∃ q, q ∈ l ∧ p = (q.1, f q.2) := by
  revert h
  induction l with
  | nil => intro h; simp [alistUpdate] at h
  | cons hd tl ih =>
    intro h
    obtain ⟨k1, v1⟩ := hd
    by_cases h1 : k1 = k
    · subst h1
      simp only [alistUpdate, if_true, eq_self_iff_true, List.mem_cons] at h
      rcases h with h | h
      · exact Or.inr ⟨(k1, v1), List.mem_cons_self _ _, h⟩
      · exact Or.inl (List.mem_cons_of_mem _ h)
    · simp only [alistUpdate, if_neg h1, List.mem_cons] at h
      rcases h with h | h
      · exact Or.inl (by simp [h])
      · rcases ih h with h2 | h2
        · exact Or.inl (List.mem_cons_of_mem _ h2)
        · obtain ⟨q, hq, hp⟩ := h2
          exact Or.inr ⟨q, List.mem_cons_of_mem _ hq, hp⟩

theorem keys_alistSet_of_has (l : List (String × α)) (k : String) (v : α)
    (h : alistHas l k = true) : (alistSet l k v).map Prod.fst = l.map Prod.fst := by
  induction l with
  | nil => simp [alistHas, alistGet?] at h
  | cons hd tl ih =>
    obtain ⟨k1, v1⟩ := hd
    by_cases h1 : k1 = k
    · subst h1
      simp [alistSet]
    · simp only [alistHas, alistGet?, if_neg h1] at h
      simp [alistSet, h1, ih h]

theorem keys_alistSet_of_not_has (l : List (String × α)) (k : String) (v : α)
    (h : alistHas l k = false) :
    (alistSet l k v).map Prod.fst = l.map Prod.fst ++ [k] := by
  induction l with
  | nil => simp [alistSet]
  | cons hd tl ih =>
    obtain ⟨k1, v1⟩ := hd
    by_cases h1 : k1 = k
    · subst h1
      simp [alistHas, alistGet?] at h
    · simp only [alistHas, alistGet?, if_neg h1] at h
      simp [alistSet, h1, ih h]

theorem keys_alistUpdate (l : List (String × α)) (k : String) (f : α → α) :
    (alistUpdate l k f).map Prod.fst = l.map Prod.fst := by
  induction l with
  | nil => simp [alistUpdate]
  | cons hd tl ih =>
    obtain ⟨k1, v1⟩ := hd
    by_cases h1 : k1 = k <;> simp [alistUpdate, h1, ih]

theorem alistGet?_eq_none_iff (l : List (String × α)) (k : String) :
    alistGet? l k = none ↔ k ∉ l.map Prod.fst := by
  induction l with
  | nil => simp [alistGet?]
  | cons hd tl ih =>
    obtain ⟨k1, v1⟩ := hd
    by_cases h1 : k1 = k
    · subst h1
      simp [alistGet?]
    · simp [alistGet?, h1, ih, Ne.symm h1]

end MemKeysLemmas

/-- Keys stay pairwise distinct and every stored report's `name` equals its
key across all sanitizer state transitions. -/
def StateInv (m : MetricsMap) : Prop :=
  (m.map Prod.fst).Nodup ∧ ∀ p ∈ m, (p : String × MetricReport).2.name = p.1

theorem stateInv_alistSet {m : MetricsMap} {k : String} {r : MetricReport}
    (hi : StateInv m) (hname : r.name = k) : StateInv (alistSet m k r) := by
  obtain ⟨hnd, hnm⟩ := hi
  constructor
  · cases hh : alistHas m k with
    | true => rw [keys_alistSet_of_has m k r hh]; exact hnd
    | false =>
      rw [keys_alistSet_of_not_has m k r hh]
      have hk : k ∉ m.map Prod.fst := by
        rw [← alistGet?_eq_none_iff]
        cases hg : alistGet? m k with
        | none => rfl
        | some r2 => simp [alistHas, hg] at hh
      simp [List.nodup_append, hnd, hk]
  · intro p hp
    rcases mem_alistSet hp with h | h
    · exact hnm p h
    · simp [h, hname]

theorem stateInv_alistUpdate {m : MetricsMap} {k : String}
    {f : MetricReport → MetricReport} (hi : StateInv m)
    (hf : ∀ r : MetricReport, (f r).name = r.name) : StateInv (alistUpdate m k f) := by
  obtain ⟨hnd, hnm⟩ := hi
  refine ⟨by rw [keys_alistUpdate]; exact hnd, ?_⟩
  intro p hp
  rcases mem_alistUpdate hp with h | h
  · exact hnm p h
  · obtain ⟨q, hq, hpq⟩ := h
    rw [hpq]
    simpa [hf] using hnm q hq

theorem stateInv_addMetricDefinition {m : MetricsMap} (d : K6MetricData)
    (hi : StateInv m) : StateInv (addMetricDefinition m d) := by
  rw [addMetricDefinition]
  by_cases hh : alistHas m d.name
  · simpa [hh] using hi
  · simp only [hh, Bool.not_false, if_pos]
    exact stateInv_alistSet hi rfl

theorem stateInv_addDataPoint {m : MetricsMap} (mn : String) (a : K6PointData)
    (hi : StateInv m) : StateInv (addDataPoint m mn a) := by
  cases hg : alistGet? m mn with
  | some r =>
    rw [addDataPoint_of_has m mn a r hg]
    exact stateInv_alistUpdate hi (fun r => rfl)
  | none =>
    rw [addDataPoint_of_not_has m mn a hg]
    exact stateInv_alistUpdate (stateInv_alistSet hi rfl) (fun r => rfl)

theorem stateInv_phase1 (raw : List K6Output) :
    ∀ s : MetricsMap, StateInv s → StateInv (phase1 raw s) := by
  induction raw with
  | nil => intro s h; simpa [phase1] using h
  | cons item rest ih =>
    intro s h
    cases item with
    | metric d => rw [phase1_cons_metric]; exact ih _ (stateInv_addMetricDefinition d h)
    | point m a => rw [phase1_cons_point]; exact ih _ h

theorem stateInv_phase2 (raw : List K6Output) :
    ∀ s : MetricsMap, StateInv s → StateInv (phase2 raw s) := by
  induction raw with
  | nil => intro s h; simpa [phase2] using h
  | cons item rest ih =>
    intro s h
    cases item with
    | metric d => rw [phase2_cons_metric]; exact ih _ h
    | point m a => rw [phase2_cons_point]; exact ih _ (stateInv_addDataPoint m a h)

theorem calcSummary_name (r : MetricReport) : (calcSummary r).name = r.name := by
  rw [calcSummary]
  by_cases h : r.points.length > 0 <;> simp [h]

theorem calcSummary_points (r : MetricReport) : (calcSummary r).points = r.points := by
  rw [calcSummary]
  by_cases h : r.points.length > 0 <;> simp [h]

theorem stateInv_calculateSummaries {m : MetricsMap} (hi : StateInv m) :
    StateInv (calculateSummaries m) := by
  obtain ⟨hnd, hnm⟩ := hi
  constructor
  · have : (calculateSummaries m).map Prod.fst = m.map Prod.fst := by
      simp [calculateSummaries]
    rw [this]
    exact hnd
  · intro p hp
    simp only [calculateSummaries, List.mem_map] at hp
    obtain ⟨q, hq, hpq⟩ := hp
    rw [← hpq]
    simpa [calcSummary_name] using hnm q hq

theorem stateInv_processData (raw : List K6Output) : StateInv (processData raw) := by
  rw [processData]
  exact stateInv_calculateSummaries
    (stateInv_phase2 raw _ (stateInv_phase1 raw [] ⟨List.nodup_nil, by simp⟩))

/-- `SummariesNone m`: no report stored in `m` carries a summary yet. -/
def SummariesNone (m : MetricsMap) : Prop :=
  ∀ p ∈ m, (p : String × MetricReport).2.summary = none

theorem summariesNone_alistSet {m : MetricsMap} {k : String} {r : MetricReport}
    (hm : SummariesNone m) (hr : r.summary = none) : SummariesNone (alistSet m k r) := by
  intro p hp
  rcases mem_alistSet hp with h | h
  · exact hm p h
  · simp [h, hr]

theorem summariesNone_addMetricDefinition {m : MetricsMap} (d : K6MetricData)
    (hm : SummariesNone m) : SummariesNone (addMetricDefinition m d) := by
  rw [addMetricDefinition]
  by_cases hh : alistHas m d.name
  · simpa [hh] using hm
  · simp only [hh, Bool.not_false, if_pos]
    exact summariesNone_alistSet hm rfl

theorem summariesNone_addDataPoint {m : MetricsMap} (mn : String) (a : K6PointData)
    (hm : SummariesNone m) : SummariesNone (addDataPoint m mn a) := by
  have hupd : ∀ m2 : MetricsMap, SummariesNone m2 →
      SummariesNone (alistUpdate m2 mn
        (fun x => { x with points := x.points ++ [toMetricPoint a] })) := by
    intro m2 hm2 p hp
    rcases mem_alistUpdate hp with h | h
    · exact hm2 p h
    · obtain ⟨q, hq, hpq⟩ := h
      rw [hpq]
      simpa using hm2 q hq
  cases hg : alistGet? m mn with
  | some r =>
    rw [addDataPoint_of_has m mn a r hg]
    exact hupd m hm
  | none =>
    rw [addDataPoint_of_not_has m mn a hg]
    exact hupd _ (summariesNone_alistSet hm rfl)

theorem summariesNone_phase1 (raw : List K6Output) :
    ∀ s : MetricsMap, SummariesNone s → SummariesNone (phase1 raw s) := by
  induction raw with
  | nil => intro s h; simpa [phase1] using h
  | cons item rest ih =>
    intro s h
    cases item with
    | metric d => rw [phase1_cons_metric]; exact ih _ (summariesNone_addMetricDefinition d h)
    | point m a => rw [phase1_cons_point]; exact ih _ h

theorem summariesNone_phase2 (raw : List K6Output) :
    ∀ s : MetricsMap, SummariesNone s → SummariesNone (phase2 raw s) := by
  induction raw with
  | nil => intro s h; simpa [phase2] using h
  | cons item rest ih =>
    intro s h
    cases item with
    | metric d => rw [phase2_cons_metric]; exact ih _ h
    | point m a => rw [phase2_cons_point]; exact ih _ (summariesNone_addDataPoint m a h)

theorem alistGet?_mem {α : Type} {l : List (String × α)} {k : String} {v : α}
    (h : alistGet? l k = some v) : (k, v) ∈ l := by
  induction l with
  | nil => simp [alistGet?] at h
  | cons hd tl ih =>
    obtain ⟨k1, v1⟩ := hd
    by_cases h1 : k1 = k
    · subst h1
      simp [alistGet?] at h
      simp [h]
    · simp only [alistGet?, if_neg h1] at h
      exact List.mem_cons_of_mem _ (ih h)

theorem head?_mem {α : Type} {l : List α} {a : α} (h : l.head? = some a) : a ∈ l := by
  cases l with
  | nil => simp at h
  | cons x xs =>
    simp only [List.head?_cons, Option.some.injEq] at h
    simp [h]

theorem foldl_add_eq_sum (l : List ℚ) : ∀ a : ℚ, l.foldl (fun x y => x + y) a = a + l.sum := by
  induction l with
  | nil => intro a; simp
  | cons x xs ih => intro a; simp [List.foldl_cons, ih, add_assoc]

theorem foldl_min_mem (xs : List ℚ) : ∀ x : ℚ, xs.foldl min x ∈ x :: xs := by
  induction xs with
  | nil => intro x; simp
  | cons y ys ih =>
    intro x
    rw [List.foldl_cons]
    rcases List.mem_cons.mp (ih (min x y)) with h | h
    · rcases min_choice x y with hc | hc
      · exact List.mem_cons.mpr (Or.inl (h.trans hc))
      · exact List.mem_cons.mpr (Or.inr (List.mem_cons.mpr (Or.inl (h.trans hc))))
    · exact List.mem_cons.mpr (Or.inr (List.mem_cons.mpr (Or.inr h)))

theorem foldl_min_le (xs : List ℚ) : ∀ x v : ℚ, v ∈ x :: xs → xs.foldl min x ≤ v := by
  induction xs with
  | nil =>
    intro x v hv
    simp only [List.mem_singleton] at hv
    simp [hv]
  | cons y ys ih =>
    intro x v hv
    rw [List.foldl_cons]
    have hinit : ys.foldl min (min x y) ≤ min x y := ih _ _ (List.mem_cons_self _ _)
    rcases List.mem_cons.mp hv with h | h
    · rw [h]
      exact hinit.trans (min_le_left _ _)
    · rcases List.mem_cons.mp h with h2 | h2
      · rw [h2]
        exact hinit.trans (min_le_right _ _)
      · exact ih _ _ (List.mem_cons_of_mem _ h2)

theorem foldl_max_mem (xs : List ℚ) : ∀ x : ℚ, xs.foldl max x ∈ x :: xs := by
  induction xs with
  | nil => intro x; simp
  | cons y ys ih =>
    intro x
    rw [List.foldl_cons]
    rcases List.mem_cons.mp (ih (max x y)) with h | h
    · rcases max_choice x y with hc | hc
      · exact List.mem_cons.mpr (Or.inl (h.trans hc))
      · exact List.mem_cons.mpr (Or.inr (List.mem_cons.mpr (Or.inl (h.trans hc))))
    · exact List.mem_cons.mpr (Or.inr (List.mem_cons.mpr (Or.inr h)))

theorem foldl_le_max (xs : List ℚ) : ∀ x v : ℚ, v ∈ x :: xs → v ≤ xs.foldl max x := by
  induction xs with
  | nil =>
    intro x v hv
    simp only [List.mem_singleton] at hv
    simp [hv]
  | cons y ys ih =>
    intro x v hv
    rw [List.foldl_cons]
    have hinit : max x y ≤ ys.foldl max (max x y) := ih _ _ (List.mem_cons_self _ _)
    rcases List.mem_cons.mp hv with h | h
    · rw [h]
      exact (le_max_left _ _).trans hinit
    · rcases List.mem_cons.mp h with h2 | h2
      · rw [h2]
        exact (le_max_right _ _).trans hinit
      · exact ih _ _ (List.mem_cons_of_mem _ h2)

theorem calcSummary_type (r : MetricReport) : (calcSummary r).type = r.type := by
  rw [calcSummary]
  by_cases h : r.points.length > 0 <;> simp [h]

theorem calcSummary_unit (r : MetricReport) : (calcSummary r).unit = r.unit := by
  rw [calcSummary]
  by_cases h : r.points.length > 0 <;> simp [h]

theorem calcSummary_descr (r : MetricReport) : (calcSummary r).description = r.description := by
  rw [calcSummary]
  by_cases h : r.points.length > 0 <;> simp [h]

theorem defEventsFor_name {raw : List K6Output} {n : String} {d : K6MetricData}
    (h : d ∈ defEventsFor raw n) : d.name = n := by
  rw [defEventsFor, List.mem_filterMap] at h
  obtain ⟨item, _, hf⟩ := h
  cases item with
  | point m a => simp at hf
  | metric d2 =>
    by_cases h2 : d2.name = n
    · simp only [h2, if_pos, Option.some.injEq] at hf
      rw [← hf]
      exact h2
    · simp [h2] at hf

/-- Claim C2 (amended): the metric-description lookup is a total function:
every name found in the static table yields that table's description, and
every other name yields the generic Spanish description `"Métrica: " ++ name`
(the code's fallback is the word "Métrica", not "Metric"). -/
theorem claim_C2_description_lookup (name : String) :
    getMetricDescription name =
      match alistGet? metricDescriptions name with
      | some d => d
      | none => "Métrica: " ++ name := by
  cases hg : alistGet? metricDescriptions name with
  | none => simp only [getMetricDescription, hg]
  | some d =>
    have hne : d ≠ "" := by
      have hall : ∀ p ∈ metricDescriptions, (p : String × String).2 ≠ "" := by decide
      exact hall (name, d) (alistGet?_mem hg)
    simp only [getMetricDescription, hg, if_neg hne]

/-- Counterexample to claim C2 as stated: for a name outside the table the
code returns "Métrica: {name}" (Spanish), not "Metric: {name}". -/
theorem claim_C2_counterexample :
    getMetricDescription "throughput" = "Métrica: throughput" ∧
    getMetricDescription "throughput" ≠ "Metric: throughput" := by
  constructor
  · rfl
  · decide

/-- Claim C3: for every event stream and name with at least one point event
and no definition event, sanitization stores an implicit report for the name
with kind "unknown", no unit and the standard description lookup, holding
exactly the stream's points for that name in order — no point is dropped. -/
theorem claim_C3_implicit_unknown (raw : List K6Output) (n : String)
    (hnodef : defEventsFor raw n = []) (hpt : pointEventsFor raw n ≠ []) :
    ∃ r, alistGet? (processData raw) n = some r ∧
      r.type = "unknown" ∧ r.unit = none ∧
      r.description = getMetricDescription n ∧
      r.points = (pointEventsFor raw n).map toMetricPoint := by
  have h1 : alistGet? (phase1 raw []) n = none := by
    rw [phase1_get_none raw [] n (by simp [alistGet?]), hnodef]
    rfl
  have h2 := phase2_get_none raw (phase1 raw []) n h1
  rw [if_neg hpt] at h2
  refine ⟨calcSummary { unknownReport n with
      points := (pointEventsFor raw n).map toMetricPoint }, ?_, ?_, ?_, ?_, ?_⟩
  · rw [processData, alistGet?_calculateSummaries, h2]
    rfl
  · rw [calcSummary_type]
    simp [unknownReport]
  · rw [calcSummary_unit]
    simp [unknownReport]
  · rw [calcSummary_descr]
    simp [unknownReport]
  · rw [calcSummary_points]

/-- Claim C4: every metric name yields at most one report (the listed names
are pairwise distinct), and when several definition events share a name the
first one seen determines the report's kind, unit and description — later
definitions for the name are ignored. -/
theorem claim_C4_first_definition_wins (raw : List K6Output) (n : String)
    (d : K6MetricData) (hd : (defEventsFor raw n).head? = some d) :
    ((getSanitizedOutput raw).map (fun r => r.name)).Nodup ∧
    ∃ r, alistGet? (processData raw) n = some r ∧
      r.type = d.type ∧ r.unit = getUnitFromContains d.contains ∧
      r.description = getMetricDescription n := by
  have hi := stateInv_processData raw
  constructor
  · have hmaps : (getSanitizedOutput raw).map (fun r => r.name) =
        (processData raw).map Prod.fst := by
      rw [getSanitizedOutput, List.map_map]
      exact List.map_congr_left (fun p hp => hi.2 p hp)
    rw [hmaps]
    exact hi.1
  · have h1 : alistGet? (phase1 raw []) n = some (defReport d) := by
      rw [phase1_get_none raw [] n (by simp [alistGet?]), hd]
      rfl
    have h2 := phase2_get_some raw _ n _ h1
    have hdn : d.name = n := defEventsFor_name (head?_mem hd)
    refine ⟨_, by rw [processData, alistGet?_calculateSummaries, h2]; rfl, ?_, ?_, ?_⟩
    · rw [calcSummary_type]
      simp [defReport]
    · rw [calcSummary_unit]
      simp [defReport]
    · rw [calcSummary_descr]
      simp [defReport, hdn]

/-- Claim C5: a sanitized report with at least one point carries a summary
whose count is the number of points, whose avg is the exact arithmetic mean
of the point values, and whose min/max are attained values bounding all point
values from below/above; a report with zero points carries no summary. -/
theorem claim_C5_summary_exact (raw : List K6Output) (r : MetricReport)
    (hr : r ∈ getSanitizedOutput raw) :
    (r.points = [] → r.summary = none) ∧
    (r.points ≠ [] → ∃ s, r.summary = some s ∧
      s.count = r.points.length ∧
      s.avg = (r.points.map (fun p => p.value)).sum / (r.points.length : ℚ) ∧
      s.min ∈ r.points.map (fun p => p.value) ∧
      (∀ v ∈ r.points.map (fun p => p.value), s.min ≤ v) ∧
      s.max ∈ r.points.map (fun p => p.value) ∧
      (∀ v ∈ r.points.map (fun p => p.value), v ≤ s.max)) := by
  rw [getSanitizedOutput, processData] at hr
  simp only [calculateSummaries, List.map_map, List.mem_map, Function.comp] at hr
  obtain ⟨p0, hp0, hr0⟩ := hr
  have hs0 : p0.2.summary = none :=
    summariesNone_phase2 raw _ (summariesNone_phase1 raw [] (by simp [SummariesNone])) p0 hp0
  have hpts : r.points = p0.2.points := by
    rw [← hr0, calcSummary_points]
  constructor
  · intro hempty
    rw [← hr0, calcSummary, if_neg (by simp [← hpts, hempty])]
    exact hs0
  · intro hne
    have hlen : p0.2.points.length > 0 := by
      rw [← hpts]
      exact List.length_pos.mpr hne
    have hsum : r.summary = some
        { count := (p0.2.points.map (fun p => p.value)).length,
          avg := (p0.2.points.map (fun p => p.value)).foldl (fun a b => a + b) 0 /
            ((p0.2.points.map (fun p => p.value)).length : ℚ),
          min := listMin (p0.2.points.map (fun p => p.value)),
          max := listMax (p0.2.points.map (fun p => p.value)) } := by
      rw [← hr0, calcSummary, if_pos hlen]
    cases hv : p0.2.points.map (fun p => p.value) with
    | nil =>
      rw [List.map_eq_nil_iff] at hv
      rw [hv] at hlen
      simp at hlen
    | cons x xs =>
      have hL : p0.2.points.length = xs.length + 1 := by
        have hc := congrArg List.length hv
        simpa using hc
      refine ⟨_, hsum, ?_, ?_, ?_, ?_, ?_, ?_⟩
      · simp [hpts, hv, hL]
      · rw [hpts, hv, foldl_add_eq_sum, zero_add, hL]
        simp
      · rw [hpts, hv]
        simp only [listMin]
        exact foldl_min_mem xs x
      · intro v hvv
        rw [hpts, hv] at hvv
        rw [hv]
        simp only [listMin]
        exact foldl_min_le xs x v hvv
      · rw [hpts, hv]
        simp only [listMax]
        exact foldl_max_mem xs x
      · intro v hvv
        rw [hpts, hv] at hvv
        rw [hv]
        simp only [listMax]
        exact foldl_le_max xs x v hvv

/-- Claim C10: a processed metric report with zero points still yields an
entry in `toMinimalOutput`, whose `lastValue` is `undefined` (the guarded
last-point access is total) and whose summary is `undefined`; no error is
raised. -/
theorem claim_C10_minimal_zero_points (raw : List K6Output) (n : String)
    (r : MetricReport) (h : (n, r) ∈ processData raw) (hpts : r.points = []) :
    ∃ e, (r.name, e) ∈ toMinimalOutput raw ∧ e.lastValue = none ∧ e.summary = none := by
  refine ⟨{ summary := r.summary,
            lastValue := (r.points.getLast?).map (fun p => p.value),
            unit := r.unit }, ?_, ?_, ?_⟩
  · rw [toMinimalOutput]
    exact List.mem_map.mpr ⟨(n, r), h, rfl⟩
  · simp [hpts]
  · rw [processData] at h
    simp only [calculateSummaries, List.mem_map] at h
    obtain ⟨q, hq, hqr⟩ := h
    have hs0 : q.2.summary = none :=
      summariesNone_phase2 raw _ (summariesNone_phase1 raw [] (by simp [SummariesNone])) q hq
    have hr : r = calcSummary q.2 := by
      have := congrArg Prod.snd hqr
      simpa using this.symm
    have hq0 : q.2.points = [] := by
      rw [hr, calcSummary_points] at hpts
      exact hpts
    simp only [hr, calcSummary, hq0]
    simp [hs0]

/-- Concrete event stream for claim C3's witness: one point whose metric name
is never defined. -/
def rawC3 : List K6Output := [K6Output.point "m1" ⟨"t0", 5, []⟩]

/-- Witness for claim C3 on `rawC3`. -/
theorem claim_C3_witness :
    (defEventsFor rawC3 "m1" = [] ∧ pointEventsFor rawC3 "m1" ≠ []) ∧
    ∃ r, alistGet? (processData rawC3) "m1" = some r ∧
      r.type = "unknown" ∧ r.unit = none ∧
      r.description = getMetricDescription "m1" ∧
      r.points = (pointEventsFor rawC3 "m1").map toMetricPoint :=
  ⟨⟨rfl, by decide⟩, claim_C3_implicit_unknown rawC3 "m1" rfl (by decide)⟩

/-- Concrete event stream for claim C4's witness: two definitions sharing the
name "dup" with different kinds and `contains` tags. -/
def rawC4 : List K6Output :=
  [K6Output.metric ⟨"dup", "counter", "time"⟩,
   K6Output.metric ⟨"dup", "gauge", "data"⟩]

/-- Witness for claim C4 on `rawC4`: the first definition's kind and unit
survive. -/
theorem claim_C4_witness :
    (defEventsFor rawC4 "dup").head? = some ⟨"dup", "counter", "time"⟩ ∧
    (((getSanitizedOutput rawC4).map (fun r => r.name)).Nodup ∧
      ∃ r, alistGet? (processData rawC4) "dup" = some r ∧
        r.type = "counter" ∧
        r.unit = getUnitFromContains (K6MetricData.mk "dup" "counter" "time").contains ∧
        r.description = getMetricDescription "dup") :=
  ⟨rfl, claim_C4_first_definition_wins rawC4 "dup" ⟨"dup", "counter", "time"⟩ rfl⟩

/-- Concrete event stream for claim C5's witness: one defined metric with
point values 1, 2, 3. -/
def rawC5 : List K6Output :=
  [K6Output.metric ⟨"checks", "rate", "default"⟩,
   K6Output.point "checks" ⟨"t1", 1, []⟩,
   K6Output.point "checks" ⟨"t2", 2, []⟩,
   K6Output.point "checks" ⟨"t3", 3, []⟩]

/-- The report `rawC5` sanitizes to: count 3, avg 2, min 1, max 3. -/
def reportC5 : MetricReport :=
  { name := "checks", type := "rate",
    description := "Checks - Verificaciones realizadas y su estado",
    unit := none,
    points := [⟨"t1", "t1", 1, []⟩, ⟨"t2", "t2", 2, []⟩, ⟨"t3", "t3", 3, []⟩],
    summary := some ⟨3, 2, 1, 3⟩ }

/-- Witness for claim C5 on `rawC5`. -/
theorem claim_C5_witness :
    reportC5 ∈ getSanitizedOutput rawC5 ∧
    ((reportC5.points = [] → reportC5.summary = none) ∧
     (reportC5.points ≠ [] → ∃ s, reportC5.summary = some s ∧
       s.count = reportC5.points.length ∧
       s.avg = (reportC5.points.map (fun p => p.value)).sum / (reportC5.points.length : ℚ) ∧
       s.min ∈ reportC5.points.map (fun p => p.value) ∧
       (∀ v ∈ reportC5.points.map (fun p => p.value), s.min ≤ v) ∧
       s.max ∈ reportC5.points.map (fun p => p.value) ∧
       (∀ v ∈ reportC5.points.map (fun p => p.value), v ≤ s.max))) := by
  have hout : getSanitizedOutput rawC5 = [reportC5] := by
    simp [getSanitizedOutput, processData, phase1, phase2, addMetricDefinition,
      addDataPoint, alistHas, alistSet, alistGet?, alistUpdate, defReport, unknownReport,
      getMetricDescription, metricDescriptions, getUnitFromContains, calcSummary,
      calculateSummaries, toMetricPoint, listMin, listMax, rawC5, reportC5]
    norm_num [min_def, max_def]
  have hmem : reportC5 ∈ getSanitizedOutput rawC5 := by
    rw [hout]
    exact List.mem_singleton.mpr rfl
  exact ⟨hmem, claim_C5_summary_exact rawC5 reportC5 hmem⟩

/-- Concrete event stream for claim C10's witness: one defined metric and no
points at all. -/
def rawC10 : List K6Output := [K6Output.metric ⟨"vus", "gauge", "default"⟩]

/-- The zero-point report `rawC10` produces. -/
def reportC10 : MetricReport :=
  { name := "vus", type := "gauge",
    description := "Virtual Users - Número de usuarios virtuales activos",
    unit := none, points := [], summary := none }

/-- Witness for claim C10 on `rawC10`. -/
theorem claim_C10_witness :
    (("vus", reportC10) ∈ processData rawC10 ∧ reportC10.points = []) ∧
    ∃ e, (reportC10.name, e) ∈ toMinimalOutput rawC10 ∧
      e.lastValue = none ∧ e.summary = none :=
  ⟨⟨by decide, rfl⟩, claim_C10_minimal_zero_points rawC10 "vus" reportC10 (by decide) rfl⟩

end Stressor

